import Mathlib

/-!
Shallow embedding of the frequency-analysis core of the chromatic tuner
(`src/freq_analysis.c`, constants from `src/macros.h`, caller in
`src/tuner.c`).  Machine integers are modelled as `Nat`/`Int`; the only
place where a C integer type can wrap is the `uint16_t` accumulator of
`calculate_sma` (modelled with an explicit `% 65536`) and the `uint8_t`
narrowing in `core0_thread` (modelled with an explicit `% 256`).  The C
`float` arithmetic of `calculate_avg_wavelength` and `calculate_freq` is
modelled over `ℚ` (exact arithmetic).  Fixed-size C arrays are modelled as
total functions from indices.
-/

namespace ChromaticTuner

/-! ### Constants from `src/macros.h` -/

def NUM_SAMPLES : ℕ := 1500

def SHIFT_LIMIT : ℕ := 1250

def SMA_WIDTH : ℕ := 20

def PEAK_SEARCH_RANGE : ℕ := 15

def PEAK_TRACKING_LIMIT : ℕ := 10

def INTERFERENCE_THRESHOLD : ℤ := 3000

def DEFAULT_VAL : ℕ := 100

def FS : ℕ := 44000

/-- `INT_MAX` from `<limits.h>` (32-bit `int`). -/
def INT_MAX : ℤ := 2147483647

/-! ### `min_in_range` (freq_analysis.c lines 3-12)

Index of the minimum value in `array[begin_index .. begin_index+range)`;
the running minimum is only replaced on a strictly smaller value, so ties
go to the lowest index. -/

def min_in_range (array : ℕ → ℤ) (begin_index range : ℕ) : ℕ :=
  (List.range range).foldl
    (fun min_index i =>
      if array (begin_index + i) < array min_index then begin_index + i
      else min_index)
    begin_index

/-! ### `calculate_peaks` (freq_analysis.c lines 14-42)

The C function receives `peaks[]` and `*peak_count` and appends the index
of each accepted local minimum at position `*peak_count - 1` after
incrementing the count; we model the peak array together with its count as
a `List ℕ` to which accepted peaks are appended (`calculate_freq` always
starts the count at 0).  The C loop computes `next_min_index` once per
iteration; here the same `min_in_range` application is written at each use
site (same value). -/

def calculate_peaks_loop (a : ℕ → ℤ) (i prev cur : ℕ) (peaks : List ℕ) :
    List ℕ :=
  if h : i < SHIFT_LIMIT - PEAK_SEARCH_RANGE - PEAK_SEARCH_RANGE then
    if a prev > a cur ∧
        a (min_in_range a (i + PEAK_SEARCH_RANGE) PEAK_SEARCH_RANGE) > a cur then
      if 0 < cur ∧ a (cur - 1) < a cur then
        peaks
      else if PEAK_TRACKING_LIMIT ≤ (peaks ++ [cur]).length then
        peaks ++ [cur]
      else
        calculate_peaks_loop a (i + PEAK_SEARCH_RANGE) cur
          (min_in_range a (i + PEAK_SEARCH_RANGE) PEAK_SEARCH_RANGE)
          (peaks ++ [cur])
    else
      calculate_peaks_loop a (i + PEAK_SEARCH_RANGE) cur
        (min_in_range a (i + PEAK_SEARCH_RANGE) PEAK_SEARCH_RANGE) peaks
  else
    peaks
termination_by SHIFT_LIMIT - i
decreasing_by
  all_goals simp only [SHIFT_LIMIT, PEAK_SEARCH_RANGE] at *
  all_goals omega

/-- `calculate_peaks` as invoked by `calculate_freq`: initial peak count 0. -/
def calculate_peaks (a : ℕ → ℤ) : List ℕ :=
  calculate_peaks_loop a PEAK_SEARCH_RANGE
    (min_in_range a 0 PEAK_SEARCH_RANGE)
    (min_in_range a PEAK_SEARCH_RANGE PEAK_SEARCH_RANGE) []

/-! ### `calculate_avg_wavelength` (freq_analysis.c lines 44-55)

C `float` arithmetic modelled over `ℚ`.  `wavelength_sum peaks n` is the
value of `sum` after the first `n` iterations of the C loop
(`sum += (float)peaks[i] / (float)(i + 1)`). -/

def wavelength_sum (peaks : List ℕ) : ℕ → ℚ
  | 0 => 0
  | n + 1 => wavelength_sum peaks n + (peaks.getD n 0 : ℚ) / ((n : ℚ) + 1)

def calculate_avg_wavelength (peaks : List ℕ) : ℚ :=
  if peaks.length = 0 then (DEFAULT_VAL : ℚ)
  else wavelength_sum peaks peaks.length / (peaks.length : ℚ)

/-! ### `calculate_sma` (freq_analysis.c lines 57-65)

The accumulator `sum` is a C `uint16_t`, hence the `% 65536` after each
addition. -/

def sma_sum (index : ℕ) (array : ℕ → ℕ) : ℕ :=
  (List.range (SMA_WIDTH + 1)).foldl
    (fun sum i => (sum + array (index + i)) % 65536) 0

def calculate_sma (index : ℕ) (array : ℕ → ℕ) : ℕ :=
  sma_sum index array / (SMA_WIDTH + 1)

/-! ### `calculate_interference_pwr` (freq_analysis.c lines 67-78)

The loop runs `i` from 0 while `i < NUM_SAMPLES - shift`; it is modelled by
recursion on the number `k` of remaining iterations.  `power_diff` is a C
`int32_t`; it is checked against `INTERFERENCE_THRESHOLD` right after every
addition, so it never exceeds 3000 + 255 and cannot overflow; it is
modelled as `ℤ`. -/

def interference_loop (array : ℕ → ℕ) (shift : ℕ) : ℕ → ℕ → ℤ → ℤ
  | _, 0, power_diff => power_diff
  | i, k + 1, power_diff =>
    if power_diff + |((array i : ℤ) - (array (i + shift) : ℤ))| >
        INTERFERENCE_THRESHOLD then
      INT_MAX
    else
      interference_loop array shift (i + 1) k
        (power_diff + |((array i : ℤ) - (array (i + shift) : ℤ))|)

def calculate_interference_pwr (shift : ℕ) (array : ℕ → ℕ) : ℤ :=
  interference_loop array shift 0 (NUM_SAMPLES - shift) 0

/-! ### `calculate_freq` (freq_analysis.c lines 80-95)

The C function materialises `interference[NUM_SAMPLES]`; the profile is
modelled as the function giving the value the C array holds at each index.
C `float` arithmetic modelled over `ℚ`. -/

def calculate_freq (array : ℕ → ℕ) : ℚ :=
  (FS : ℚ) /
    calculate_avg_wavelength
      (calculate_peaks (fun shift => calculate_interference_pwr shift array))

/-! ### Specification-side partial sums for the interference profiler -/

/-- Partial sum of `|array[k] - array[k+shift]|` over `k < m`. -/
def ipsum (array : ℕ → ℕ) (shift m : ℕ) : ℤ :=
  ∑ k in Finset.range m, |((array k : ℤ) - (array (k + shift) : ℤ))|

/-! ### Helper lemmas about `min_in_range` -/

theorem min_in_range_zero (a : ℕ → ℤ) (b : ℕ) : min_in_range a b 0 = b := rfl

theorem min_in_range_succ (a : ℕ → ℤ) (b r : ℕ) :
    min_in_range a b (r + 1) =
      if a (b + r) < a (min_in_range a b r) then b + r
      else min_in_range a b r := by
  simp [min_in_range, List.range_succ]

theorem min_in_range_lb (a : ℕ → ℤ) (b : ℕ) :
    ∀ r, b ≤ min_in_range a b r := by
  intro r
  induction r with
  | zero => exact le_of_eq (min_in_range_zero a b).symm
  | succ r ih =>
    rw [min_in_range_succ]
    split
    · exact Nat.le_add_right b r
    · exact ih

theorem min_in_range_le (a : ℕ → ℤ) (b : ℕ) :
    ∀ r, min_in_range a b r ≤ b + r := by
  intro r
  induction r with
  | zero => exact le_of_eq (min_in_range_zero a b)
  | succ r ih =>
    rw [min_in_range_succ]
    split
    · exact Nat.le_add_right _ 1
    · exact le_trans ih (by omega)

theorem min_in_range_lt (a : ℕ → ℤ) (b : ℕ) :
    ∀ r, 0 < r → min_in_range a b r < b + r := by
  intro r
  induction r with
  | zero => intro h; exact absurd h (lt_irrefl 0)
  | succ r ih =>
    intro _
    rw [min_in_range_succ]
    split
    · omega
    · rcases Nat.eq_zero_or_pos r with hr | hr
      · subst hr; rw [min_in_range_zero]; omega
      · exact lt_trans (ih hr) (by omega)

theorem min_in_range_min (a : ℕ → ℤ) (b : ℕ) :
    ∀ r, ∀ j < r, a (min_in_range a b r) ≤ a (b + j) := by
  intro r
  induction r with
  | zero => intro j hj; exact absurd hj (Nat.not_lt_zero j)
  | succ r ih =>
    intro j hj
    rw [min_in_range_succ]
    rcases Nat.lt_succ_iff_lt_or_eq.mp hj with hj' | hj'
    · split
      · next hlt => exact le_trans (le_of_lt hlt) (ih j hj')
      · exact ih j hj'
    · subst hj'
      split
      · exact le_refl _
      · next hge => exact le_of_not_lt hge

theorem min_in_range_first (a : ℕ → ℤ) (b : ℕ) :
    ∀ r, ∀ j, b ≤ j → j < min_in_range a b r →
      a (min_in_range a b r) < a j := by
  intro r
  induction r with
  | zero =>
    intro j hbj hj
    rw [min_in_range_zero] at hj
    omega
  | succ r ih =>
    intro j hbj hj
    rw [min_in_range_succ] at hj ⊢
    split
    · next hlt =>
      rw [if_pos hlt] at hj
      have hjr : j < b + r := by
        have := min_in_range_le a b r
        omega
      have hjw : j - b < r := by omega
      have := min_in_range_min a b r (j - b) hjw
      have hbj' : b + (j - b) = j := by omega
      rw [hbj'] at this
      exact lt_of_lt_of_le hlt this
    · next hge =>
      rw [if_neg hge] at hj
      exact ih j hbj hj

theorem min_in_range_congr (a a2 : ℕ → ℤ) (b : ℕ) :
    ∀ r, (∀ j, b ≤ j → j < b + r → a j = a2 j) →
      min_in_range a b r = min_in_range a2 b r := by
  intro r
  induction r with
  | zero => intro _; rfl
  | succ r ih =>
    intro h
    have hsub : ∀ j, b ≤ j → j < b + r → a j = a2 j := by
      intro j h1 h2; exact h j h1 (by omega)
    have he := ih hsub
    rw [min_in_range_succ, min_in_range_succ, ← he]
    have hm1 : a (b + r) = a2 (b + r) := h (b + r) (by omega) (by omega)
    have hm2 : a (min_in_range a b r) = a2 (min_in_range a b r) := by
      refine h _ (min_in_range_lb a b r) ?_
      have := min_in_range_le a b r
      omega
    rw [hm1, hm2]

/-! ### Helper lemmas about `sma_sum` -/

theorem sma_fold (index : ℕ) (array : ℕ → ℕ)
    (h : ∀ i < SMA_WIDTH + 1, array (index + i) ≤ 255) :
    ∀ n ≤ SMA_WIDTH + 1,
      (List.range n).foldl (fun sum i => (sum + array (index + i)) % 65536) 0 =
        (∑ i in Finset.range n, array (index + i)) ∧
      (∑ i in Finset.range n, array (index + i)) ≤ 255 * n := by
  intro n
  induction n with
  | zero => intro _; simp
  | succ n ih =>
    intro hn
    obtain ⟨ihf, ihb⟩ := ih (by omega)
    have hbound : array (index + n) ≤ 255 := h n (by omega)
    constructor
    · rw [List.range_succ, List.foldl_append, List.foldl_cons, List.foldl_nil,
        ihf, Finset.sum_range_succ]
      have : (∑ i in Finset.range n, array (index + i)) + array (index + n) <
          65536 := by
        have hn' : 255 * n ≤ 255 * SMA_WIDTH := by
          have : n ≤ SMA_WIDTH := by omega
          exact Nat.mul_le_mul_left 255 this
        simp only [SMA_WIDTH] at hn'
        omega
      exact Nat.mod_eq_of_lt this
    · rw [Finset.sum_range_succ]
      have : 255 * (n + 1) = 255 * n + 255 := by ring
      omega

theorem sma_sum_spec (index : ℕ) (array : ℕ → ℕ)
    (h : ∀ i < SMA_WIDTH + 1, array (index + i) ≤ 255) :
    sma_sum index array =
      (∑ i in Finset.range (SMA_WIDTH + 1), array (index + i)) ∧
    sma_sum index array ≤ 5355 := by
  obtain ⟨hf, hb⟩ := sma_fold index array h (SMA_WIDTH + 1) (le_refl _)
  refine ⟨hf, ?_⟩
  rw [sma_sum, hf]
  simpa [SMA_WIDTH] using hb

/-! ### Helper lemmas about `interference_loop` -/

theorem interference_loop_complete (array : ℕ → ℕ) (shift : ℕ) :
    ∀ k i acc,
      acc + (∑ t in Finset.range k,
          |((array (i + t) : ℤ) - (array (i + t + shift) : ℤ))|) ≤
        INTERFERENCE_THRESHOLD →
      interference_loop array shift i k acc =
        acc + ∑ t in Finset.range k,
          |((array (i + t) : ℤ) - (array (i + t + shift) : ℤ))| := by
  intro k
  induction k with
  | zero => intro i acc _; simp [interference_loop]
  | succ k ih =>
    intro i acc hle
    have hsplit :
        (∑ t in Finset.range (k + 1),
            |((array (i + t) : ℤ) - (array (i + t + shift) : ℤ))|) =
          |((array i : ℤ) - (array (i + shift) : ℤ))| +
            ∑ t in Finset.range k,
              |((array (i + 1 + t) : ℤ) - (array (i + 1 + t + shift) : ℤ))| := by
      rw [Finset.sum_range_succ']
      have hsum : (∑ x in Finset.range k,
          |((array (i + (x + 1)) : ℤ) - (array (i + (x + 1) + shift) : ℤ))|) =
          ∑ t in Finset.range k,
            |((array (i + 1 + t) : ℤ) - (array (i + 1 + t + shift) : ℤ))| := by
        refine Finset.sum_congr rfl fun x _ => ?_
        rw [show i + (x + 1) = i + 1 + x by omega]
      rw [hsum]
      simp only [Nat.add_zero]
      ring
    have hterm :
        |((array i : ℤ) - (array (i + shift) : ℤ))| ≤
          ∑ t in Finset.range (k + 1),
            |((array (i + t) : ℤ) - (array (i + t + shift) : ℤ))| := by
      rw [hsplit]
      have : (0 : ℤ) ≤ ∑ t in Finset.range k,
          |((array (i + 1 + t) : ℤ) - (array (i + 1 + t + shift) : ℤ))| :=
        Finset.sum_nonneg fun t _ => abs_nonneg _
      omega
    rw [interference_loop]
    rw [if_neg (by omega)]
    rw [ih (i + 1) (acc + |((array i : ℤ) - (array (i + shift) : ℤ))|)
      (by rw [hsplit] at hle; omega)]
    rw [hsplit]
    ring

theorem interference_loop_exceed (array : ℕ → ℕ) (shift : ℕ) :
    ∀ k i acc,
      acc ≤ INTERFERENCE_THRESHOLD →
      INTERFERENCE_THRESHOLD <
        acc + (∑ t in Finset.range k,
          |((array (i + t) : ℤ) - (array (i + t + shift) : ℤ))|) →
      interference_loop array shift i k acc = INT_MAX := by
  intro k
  induction k with
  | zero => intro i acc hacc hgt; simp at hgt; omega
  | succ k ih =>
    intro i acc hacc hgt
    have hsplit :
        (∑ t in Finset.range (k + 1),
            |((array (i + t) : ℤ) - (array (i + t + shift) : ℤ))|) =
          |((array i : ℤ) - (array (i + shift) : ℤ))| +
            ∑ t in Finset.range k,
              |((array (i + 1 + t) : ℤ) - (array (i + 1 + t + shift) : ℤ))| := by
      rw [Finset.sum_range_succ']
      have hsum : (∑ x in Finset.range k,
          |((array (i + (x + 1)) : ℤ) - (array (i + (x + 1) + shift) : ℤ))|) =
          ∑ t in Finset.range k,
            |((array (i + 1 + t) : ℤ) - (array (i + 1 + t + shift) : ℤ))| := by
        refine Finset.sum_congr rfl fun x _ => ?_
        rw [show i + (x + 1) = i + 1 + x by omega]
      rw [hsum]
      simp only [Nat.add_zero]
      ring
    rw [interference_loop]
    by_cases hd :
        acc + |((array i : ℤ) - (array (i + shift) : ℤ))| >
          INTERFERENCE_THRESHOLD
    · rw [if_pos hd]
    · rw [if_neg hd]
      refine ih (i + 1) _ (by omega) ?_
      rw [hsplit] at hgt
      omega

theorem ipsum_mono (array : ℕ → ℕ) (shift : ℕ) {m n : ℕ} (h : m ≤ n) :
    ipsum array shift m ≤ ipsum array shift n := by
  refine Finset.sum_le_sum_of_subset_of_nonneg
    (Finset.range_subset.mpr h) ?_
  intro t _ _
  exact abs_nonneg _

/-! ### Claim theorems -/

/-- C1: for a signal of `NUM_SAMPLES` (1500) byte samples and a shift in
`[0, NUM_SAMPLES)`, `calculate_interference_pwr` returns the full sum
`∑ k < NUM_SAMPLES - shift, |signal[k] - signal[k+shift]|` whenever no
partial sum of that series exceeds `INTERFERENCE_THRESHOLD` (3000), and
returns the sentinel `INT_MAX` as soon as a running partial sum exceeds
3000 (the partial sum beyond the threshold is discarded). -/
theorem claim_C1_interference_pwr (array : ℕ → ℕ) (shift : ℕ)
    (hshift : shift < NUM_SAMPLES) :
    ((∀ m ≤ NUM_SAMPLES - shift,
        ipsum array shift m ≤ INTERFERENCE_THRESHOLD) →
      calculate_interference_pwr shift array =
        ipsum array shift (NUM_SAMPLES - shift)) ∧
    ((∃ m ≤ NUM_SAMPLES - shift,
        INTERFERENCE_THRESHOLD < ipsum array shift m) →
      calculate_interference_pwr shift array = INT_MAX) := by
  have hips : ∀ k, ipsum array shift k =
      ∑ t in Finset.range k,
        |((array (0 + t) : ℤ) - (array (0 + t + shift) : ℤ))| := by
    intro k
    unfold ipsum
    simp
  constructor
  · intro hall
    rw [calculate_interference_pwr,
      interference_loop_complete array shift (NUM_SAMPLES - shift) 0 0 ?side]
    · rw [← hips, zero_add]
    case side =>
      rw [← hips, zero_add]
      exact hall (NUM_SAMPLES - shift) (le_refl _)
  · rintro ⟨m, hm, hgt⟩
    rw [calculate_interference_pwr]
    refine interference_loop_exceed array shift (NUM_SAMPLES - shift) 0 0
      (by simp [INTERFERENCE_THRESHOLD]) ?_
    rw [← hips, zero_add]
    exact lt_of_lt_of_le hgt (ipsum_mono array shift hm)

/-- Witness for C1 at the all-zero signal with shift 3: no partial sum
exceeds the threshold and the result is the (zero) full sum. -/
theorem claim_C1_witness :
    (3 < NUM_SAMPLES ∧
      ∀ m ≤ NUM_SAMPLES - 3,
        ipsum (fun _ => 0) 3 m ≤ INTERFERENCE_THRESHOLD) ∧
    calculate_interference_pwr 3 (fun _ => 0) =
      ipsum (fun _ => 0) 3 (NUM_SAMPLES - 3) := by
  have h1 : (3 : ℕ) < NUM_SAMPLES := by decide
  have h2 : ∀ m ≤ NUM_SAMPLES - 3,
      ipsum (fun _ => 0) 3 m ≤ INTERFERENCE_THRESHOLD := by
    intro m _
    simp [ipsum, INTERFERENCE_THRESHOLD]
  exact ⟨⟨h1, h2⟩, (claim_C1_interference_pwr (fun _ => 0) 3 h1).1 h2⟩

/-! ### `wavelength_sum` as a `Finset` sum -/

theorem wavelength_sum_eq (peaks : List ℕ) :
    ∀ n, wavelength_sum peaks n =
      ∑ r in Finset.range n, (peaks.getD r 0 : ℚ) / ((r : ℚ) + 1) := by
  intro n
  induction n with
  | zero => simp [wavelength_sum]
  | succ n ih => rw [wavelength_sum, ih, Finset.sum_range_succ]

/-- C2: `calculate_avg_wavelength` returns the default wavelength
`DEFAULT_VAL` (100) on an empty peak list (a fallback, not an error
signal), and otherwise returns the sum over ranks `r = 1..n` of
`peaks[r-1] / r`, divided by the peak count `n`.  C `float` arithmetic is
modelled by exact arithmetic over `ℚ`. -/
theorem claim_C2_avg_wavelength (peaks : List ℕ) :
    (peaks.length = 0 → calculate_avg_wavelength peaks = (DEFAULT_VAL : ℚ)) ∧
    (0 < peaks.length →
      calculate_avg_wavelength peaks =
        (∑ r in Finset.range peaks.length,
          (peaks.getD r 0 : ℚ) / ((r : ℚ) + 1)) / (peaks.length : ℚ)) := by
  constructor
  · intro h
    rw [calculate_avg_wavelength, if_pos h]
  · intro h
    rw [calculate_avg_wavelength, if_neg (by omega), wavelength_sum_eq]

/-- Witness for C2 at the peak list `[200, 400]`:
`(200/1 + 400/2)/2 = 200`. -/
theorem claim_C2_witness :
    (0 < [200, 400].length ∧
      calculate_avg_wavelength [200, 400] =
        (∑ r in Finset.range ([200, 400] : List ℕ).length,
          (([200, 400] : List ℕ).getD r 0 : ℚ) / ((r : ℚ) + 1)) /
          (([200, 400] : List ℕ).length : ℚ)) ∧
    calculate_avg_wavelength [200, 400] = 200 := by
  have h0 : 0 < ([200, 400] : List ℕ).length := by decide
  have h := (claim_C2_avg_wavelength [200, 400]).2 h0
  refine ⟨⟨h0, h⟩, ?_⟩
  rw [h]
  norm_num [Finset.sum_range_succ]

/-- C6: for every raw window and every index, `calculate_sma` equals the
truncating-division mean of the `SMA_WIDTH + 1 = 21` consecutive raw
samples `raw[i] .. raw[i + SMA_WIDTH]` inclusive.  The raw window is
modelled as a total function, so the C precondition that the window has at
least `i + SMA_WIDTH + 1` elements is expressed by quantifying the sample
bound over exactly those 21 positions. -/
theorem claim_C6_sma (index : ℕ) (array : ℕ → ℕ)
    (h : ∀ i < SMA_WIDTH + 1, array (index + i) ≤ 255) :
    calculate_sma index array =
      (∑ i in Finset.range (SMA_WIDTH + 1), array (index + i)) /
        (SMA_WIDTH + 1) := by
  rw [calculate_sma, (sma_sum_spec index array h).1]

/-- Witness for C6 at the constant-3 window, index 0: the mean of 21
samples equal to 3 is 3. -/
theorem claim_C6_witness :
    ((∀ i < SMA_WIDTH + 1, (fun _ => 3 : ℕ → ℕ) (0 + i) ≤ 255) ∧
      calculate_sma 0 (fun _ => 3) =
        (∑ i in Finset.range (SMA_WIDTH + 1),
          (fun _ => 3 : ℕ → ℕ) (0 + i)) / (SMA_WIDTH + 1)) ∧
    calculate_sma 0 (fun _ => 3) = 3 := by
  have h : ∀ i < SMA_WIDTH + 1, (fun _ => 3 : ℕ → ℕ) (0 + i) ≤ 255 := by
    intro i _; norm_num
  refine ⟨⟨h, claim_C6_sma 0 (fun _ => 3) h⟩, by decide⟩

/-- C10: for byte-valued raw samples the 16-bit accumulator of
`calculate_sma` never wraps (the accumulated sum equals the untruncated
sum and is at most `21 * 255 = 5355 < 65536`), and the returned mean is at
most 255, so the `uint8_t` narrowing `samples[i] = calculate_sma(i,
samples_buff)` in `core0_thread` (modelled as `% 256`) never truncates. -/
theorem claim_C10_sma_no_overflow (index : ℕ) (array : ℕ → ℕ)
    (h : ∀ i < SMA_WIDTH + 1, array (index + i) ≤ 255) :
    sma_sum index array =
      (∑ i in Finset.range (SMA_WIDTH + 1), array (index + i)) ∧
    sma_sum index array ≤ 5355 ∧
    calculate_sma index array ≤ 255 ∧
    calculate_sma index array % 256 = calculate_sma index array := by
  obtain ⟨hf, hb⟩ := sma_sum_spec index array h
  have hmean : calculate_sma index array ≤ 255 := by
    rw [calculate_sma]
    have : sma_sum index array / (SMA_WIDTH + 1) ≤ 5355 / (SMA_WIDTH + 1) :=
      Nat.div_le_div_right hb
    simpa [SMA_WIDTH] using this
  exact ⟨hf, hb, hmean, Nat.mod_eq_of_lt (by omega)⟩

/-- Witness for C10 at the constant-255 window, index 5: the accumulated
sum is 5355 and the mean 255 survives the byte narrowing. -/
theorem claim_C10_witness :
    ((∀ i < SMA_WIDTH + 1, (fun _ => 255 : ℕ → ℕ) (5 + i) ≤ 255) ∧
      sma_sum 5 (fun _ => 255) ≤ 5355 ∧
      calculate_sma 5 (fun _ => 255) % 256 = calculate_sma 5 (fun _ => 255)) ∧
    calculate_sma 5 (fun _ => 255) = 255 := by
  have h : ∀ i < SMA_WIDTH + 1, (fun _ => 255 : ℕ → ℕ) (5 + i) ≤ 255 := by
    intro i _; norm_num
  obtain ⟨_, hb, _, hn⟩ := claim_C10_sma_no_overflow 5 (fun _ => 255) h
  exact ⟨⟨h, hb, hn⟩, by decide⟩

/-! ### Constant signals -/

theorem interference_loop_const (a shift : ℕ) :
    ∀ k i, interference_loop (fun _ => a) shift i k 0 = 0 := by
  intro k
  induction k with
  | zero => intro i; rfl
  | succ k ih =>
    intro i
    rw [interference_loop]
    simp only [sub_self, abs_zero, add_zero]
    rw [if_neg (by norm_num [INTERFERENCE_THRESHOLD])]
    exact ih (i + 1)

theorem calculate_interference_pwr_const (a shift : ℕ) :
    calculate_interference_pwr shift (fun _ => a) = 0 :=
  interference_loop_const a shift (NUM_SAMPLES - shift) 0

/-- On a profile with everywhere-equal values no strict comparison ever
holds, so the scan slides to the end without touching the peak list. -/
theorem calculate_peaks_loop_const (q : ℕ → ℤ) (hq : ∀ x y, q x = q y) :
    ∀ n i prev cur peaks, SHIFT_LIMIT - i ≤ n →
      calculate_peaks_loop q i prev cur peaks = peaks := by
  intro n
  induction n with
  | zero =>
    intro i prev cur peaks hn
    rw [calculate_peaks_loop]
    rw [dif_neg (by simp only [SHIFT_LIMIT, PEAK_SEARCH_RANGE] at *; omega)]
  | succ n ih =>
    intro i prev cur peaks hn
    by_cases hg : i < SHIFT_LIMIT - PEAK_SEARCH_RANGE - PEAK_SEARCH_RANGE
    · conv_lhs => rw [calculate_peaks_loop]
      rw [dif_pos hg]
      rw [if_neg (fun hc => absurd hc.1 (by rw [hq prev cur]; exact lt_irrefl _))]
      refine ih (i + PEAK_SEARCH_RANGE) cur _ peaks ?_
      simp only [SHIFT_LIMIT, PEAK_SEARCH_RANGE] at *
      omega
    · rw [calculate_peaks_loop, dif_neg hg]

theorem calculate_peaks_const (q : ℕ → ℤ) (hq : ∀ x y, q x = q y) :
    calculate_peaks q = [] := by
  rw [calculate_peaks]
  exact calculate_peaks_loop_const q hq SHIFT_LIMIT PEAK_SEARCH_RANGE _ _ []
    (by simp only [SHIFT_LIMIT, PEAK_SEARCH_RANGE]; omega)

/-- C5: on a raw window whose samples all equal one amplitude `a`, every
smoothed sample equals `a`; `calculate_interference_pwr` returns 0 for
every shift in `[0, NUM_SAMPLES)`; the peak detector declares no peaks
(no strict inequality ever holds between window minima); and
`calculate_freq` on the smoothed signal returns
`FS / DEFAULT_VAL = 44000 / 100 = 440`. -/
theorem claim_C5_constant_signal (a : ℕ) (ha : a ≤ 255) :
    (∀ i, calculate_sma i (fun _ => a) = a) ∧
    (∀ shift < NUM_SAMPLES,
      calculate_interference_pwr shift (fun _ => a) = 0) ∧
    calculate_peaks
      (fun shift => calculate_interference_pwr shift (fun _ => a)) = [] ∧
    calculate_freq (fun _ => a) = 440 := by
  have hpeaks : calculate_peaks
      (fun shift => calculate_interference_pwr shift (fun _ => a)) = [] := by
    refine calculate_peaks_const _ fun x y => ?_
    rw [calculate_interference_pwr_const, calculate_interference_pwr_const]
  refine ⟨?_, fun shift _ => calculate_interference_pwr_const a shift,
    hpeaks, ?_⟩
  · intro i
    have h : ∀ i' < SMA_WIDTH + 1, (fun _ => a : ℕ → ℕ) (i + i') ≤ 255 :=
      fun _ _ => ha
    rw [calculate_sma, (sma_sum_spec i (fun _ => a) h).1]
    simp only [Finset.sum_const, Finset.card_range, smul_eq_mul]
    exact Nat.mul_div_cancel_left a (by norm_num)
  · rw [calculate_freq, hpeaks]
    rw [calculate_avg_wavelength]
    norm_num [FS, DEFAULT_VAL]

/-- Witness for C5 at amplitude 5. -/
theorem claim_C5_witness :
    ((5 : ℕ) ≤ 255 ∧ calculate_freq (fun _ => 5) = 440) ∧
    calculate_sma 0 (fun _ => 5) = 5 ∧
    calculate_interference_pwr 7 (fun _ => 5) = 0 := by
  have ha : (5 : ℕ) ≤ 255 := by norm_num
  obtain ⟨hsma, hint, _, hfreq⟩ := claim_C5_constant_signal 5 ha
  exact ⟨⟨ha, hfreq⟩, hsma 0, hint 7 (by norm_num [NUM_SAMPLES])⟩

/-- C4: when a declared candidate's immediate predecessor in the profile
has a strictly lower value than the candidate itself, the candidate is not
appended and the whole scan terminates at that point: the peak list is
returned exactly as it was, so no peak at any higher shift is appended in
that invocation. -/
theorem claim_C4_harmonic_rejection (a : ℕ → ℤ) (i prev cur : ℕ)
    (peaks : List ℕ)
    (hi : i < SHIFT_LIMIT - PEAK_SEARCH_RANGE - PEAK_SEARCH_RANGE)
    (hdecl : a prev > a cur ∧
      a (min_in_range a (i + PEAK_SEARCH_RANGE) PEAK_SEARCH_RANGE) > a cur)
    (hpos : 0 < cur) (hpred : a (cur - 1) < a cur) :
    calculate_peaks_loop a i prev cur peaks = peaks := by
  conv_lhs => rw [calculate_peaks_loop]
  rw [dif_pos hi, if_pos hdecl, if_pos ⟨hpos, hpred⟩]

/-- Witness for C4: a profile with a dip of value 10 at index 17 preceded
by a lower value 5 at index 16; the scan from the state examining that
candidate returns the peak list unchanged. -/
theorem claim_C4_witness :
    (15 < SHIFT_LIMIT - PEAK_SEARCH_RANGE - PEAK_SEARCH_RANGE ∧
      ((fun j => if j = 16 then (5 : ℤ) else if j = 17 then 10 else 20) 3 >
          (fun j => if j = 16 then (5 : ℤ) else if j = 17 then 10 else 20) 17 ∧
        (fun j => if j = 16 then (5 : ℤ) else if j = 17 then 10 else 20)
            (min_in_range
              (fun j => if j = 16 then (5 : ℤ) else if j = 17 then 10 else 20)
              (15 + PEAK_SEARCH_RANGE) PEAK_SEARCH_RANGE) >
          (fun j => if j = 16 then (5 : ℤ) else if j = 17 then 10 else 20) 17) ∧
      0 < 17 ∧
      (fun j => if j = 16 then (5 : ℤ) else if j = 17 then 10 else 20) (17 - 1) <
        (fun j => if j = 16 then (5 : ℤ) else if j = 17 then 10 else 20) 17) ∧
    calculate_peaks_loop
      (fun j => if j = 16 then (5 : ℤ) else if j = 17 then 10 else 20)
      15 3 17 [] = [] := by
  refine ⟨⟨by decide, ⟨by decide, by decide⟩, by decide, by decide⟩, ?_⟩
  exact claim_C4_harmonic_rejection _ 15 3 17 []
    (by decide) ⟨by decide, by decide⟩ (by decide) (by decide)

/-! ### Scan invariants: capacity, order, lower bound -/

theorem chain'_append_singleton {l : List ℕ} {x : ℕ}
    (h : List.Chain' (· < ·) l) (hx : ∀ p ∈ l, p < x) :
    List.Chain' (· < ·) (l ++ [x]) := by
  refine List.chain'_append.mpr ⟨h, List.chain'_singleton x, ?_⟩
  intro y hy z hz
  simp only [List.head?_cons, Option.mem_def, Option.some.injEq] at hz
  subst hz
  obtain ⟨hne, hy'⟩ := List.mem_getLast?_eq_getLast hy
  exact hy' ▸ hx _ (List.getLast_mem hne)

/-- Main invariant of the scan loop: starting from a current window
minimum in `[PEAK_SEARCH_RANGE, i + PEAK_SEARCH_RANGE)` and a strictly
increasing peak list of length `< PEAK_TRACKING_LIMIT` whose entries are
at least `PEAK_SEARCH_RANGE` and below the current minimum, the scan
returns a strictly increasing list of length at most
`PEAK_TRACKING_LIMIT` whose entries are at least `PEAK_SEARCH_RANGE`. -/
theorem calculate_peaks_loop_invariant (a : ℕ → ℤ) :
    ∀ n i prev cur peaks, SHIFT_LIMIT - i ≤ n →
      PEAK_SEARCH_RANGE ≤ cur → cur < i + PEAK_SEARCH_RANGE →
      (∀ p ∈ peaks, PEAK_SEARCH_RANGE ≤ p ∧ p < cur) →
      List.Chain' (· < ·) peaks →
      peaks.length < PEAK_TRACKING_LIMIT →
      (calculate_peaks_loop a i prev cur peaks).length ≤ PEAK_TRACKING_LIMIT ∧
      List.Chain' (· < ·) (calculate_peaks_loop a i prev cur peaks) ∧
      ∀ p ∈ calculate_peaks_loop a i prev cur peaks, PEAK_SEARCH_RANGE ≤ p := by
  intro n
  induction n with
  | zero =>
    intro i prev cur peaks hn hlo hhi hpk hch hlen
    rw [calculate_peaks_loop,
      dif_neg (by simp only [SHIFT_LIMIT, PEAK_SEARCH_RANGE] at *; omega)]
    exact ⟨le_of_lt hlen, hch, fun p hp => (hpk p hp).1⟩
  | succ n ih =>
    intro i prev cur peaks hn hlo hhi hpk hch hlen
    by_cases hg : i < SHIFT_LIMIT - PEAK_SEARCH_RANGE - PEAK_SEARCH_RANGE
    · have hnext_lb : i + PEAK_SEARCH_RANGE ≤
          min_in_range a (i + PEAK_SEARCH_RANGE) PEAK_SEARCH_RANGE :=
        min_in_range_lb a _ _
      have hnext_ub : min_in_range a (i + PEAK_SEARCH_RANGE) PEAK_SEARCH_RANGE <
          i + PEAK_SEARCH_RANGE + PEAK_SEARCH_RANGE :=
        min_in_range_lt a _ _ (by simp only [PEAK_SEARCH_RANGE]; omega)
      have hfuel : SHIFT_LIMIT - (i + PEAK_SEARCH_RANGE) ≤ n := by
        simp only [SHIFT_LIMIT, PEAK_SEARCH_RANGE] at *
        omega
      have hcur_lt_next : cur <
          min_in_range a (i + PEAK_SEARCH_RANGE) PEAK_SEARCH_RANGE :=
        lt_of_lt_of_le hhi hnext_lb
      rw [calculate_peaks_loop, dif_pos hg]
      by_cases hc : a prev > a cur ∧
          a (min_in_range a (i + PEAK_SEARCH_RANGE) PEAK_SEARCH_RANGE) > a cur
      · rw [if_pos hc]
        by_cases hh : 0 < cur ∧ a (cur - 1) < a cur
        · rw [if_pos hh]
          exact ⟨le_of_lt hlen, hch, fun p hp => (hpk p hp).1⟩
        · rw [if_neg hh]
          have hch' : List.Chain' (· < ·) (peaks ++ [cur]) :=
            chain'_append_singleton hch fun p hp => (hpk p hp).2
          have hpk' : ∀ p ∈ peaks ++ [cur],
              PEAK_SEARCH_RANGE ≤ p ∧ p <
                min_in_range a (i + PEAK_SEARCH_RANGE) PEAK_SEARCH_RANGE := by
            intro p hp
            rcases List.mem_append.mp hp with hp' | hp'
            · exact ⟨(hpk p hp').1,
                lt_trans (hpk p hp').2 hcur_lt_next⟩
            · have : p = cur := List.mem_singleton.mp hp'
              subst this
              exact ⟨hlo, hcur_lt_next⟩
          by_cases hf : PEAK_TRACKING_LIMIT ≤ (peaks ++ [cur]).length
          · rw [if_pos hf]
            refine ⟨?_, hch', fun p hp => (hpk' p hp).1⟩
            simp only [List.length_append, List.length_cons,
              List.length_nil] at *
            omega
          · rw [if_neg hf]
            refine ih (i + PEAK_SEARCH_RANGE) cur _ (peaks ++ [cur]) hfuel
              (le_trans hlo (le_of_lt hcur_lt_next)) hnext_ub hpk' hch' ?_
            simp only [List.length_append, List.length_cons,
              List.length_nil] at *
            omega
      · rw [if_neg hc]
        refine ih (i + PEAK_SEARCH_RANGE) cur _ peaks hfuel
          (le_trans hlo (le_of_lt hcur_lt_next)) hnext_ub ?_ hch hlen
        intro p hp
        exact ⟨(hpk p hp).1, lt_trans (hpk p hp).2 hcur_lt_next⟩
    · rw [calculate_peaks_loop, dif_neg hg]
      exact ⟨le_of_lt hlen, hch, fun p hp => (hpk p hp).1⟩

/-- C7: with the initial peak count 0 used by `calculate_freq`, the scan
never collects more than `PEAK_TRACKING_LIMIT` (10) peaks and appends
accepted peaks in scan order (the result is strictly increasing in
shift).  Entries are appended one at a time at position
`peak_count - 1` after the increment, i.e. at the length of the list so
far, so a final length of at most 10 also means no write ever happens at
a position `≥ PEAK_TRACKING_LIMIT`, and the scan returns immediately
when the count reaches 10. -/
theorem claim_C7_peak_capacity (a : ℕ → ℤ) :
    (calculate_peaks a).length ≤ PEAK_TRACKING_LIMIT ∧
    List.Chain' (· < ·) (calculate_peaks a) := by
  have h := calculate_peaks_loop_invariant a SHIFT_LIMIT PEAK_SEARCH_RANGE
    (min_in_range a 0 PEAK_SEARCH_RANGE)
    (min_in_range a PEAK_SEARCH_RANGE PEAK_SEARCH_RANGE) []
    (by simp only [SHIFT_LIMIT, PEAK_SEARCH_RANGE]; omega)
    (min_in_range_lb a _ _)
    (min_in_range_lt a _ _ (by simp only [PEAK_SEARCH_RANGE]; omega))
    (by intro p hp; exact absurd hp (List.not_mem_nil p))
    List.chain'_nil
    (by simp only [List.length_nil, PEAK_TRACKING_LIMIT]; omega)
  exact ⟨h.1, h.2.1⟩

/-- Witness for C7 at the all-zero profile. -/
theorem claim_C7_witness :
    (calculate_peaks (fun _ => (0 : ℤ))).length ≤ PEAK_TRACKING_LIMIT ∧
    List.Chain' (· < ·) (calculate_peaks (fun _ => (0 : ℤ))) :=
  claim_C7_peak_capacity (fun _ => (0 : ℤ))

/-! ### Positivity of the average wavelength -/

theorem wavelength_sum_nonneg (peaks : List ℕ) :
    ∀ n, 0 ≤ wavelength_sum peaks n := by
  intro n
  induction n with
  | zero => exact le_refl 0
  | succ n ih =>
    rw [wavelength_sum]
    have h1 : (0 : ℚ) ≤ (peaks.getD n 0 : ℚ) / ((n : ℚ) + 1) := by
      apply div_nonneg
      · exact_mod_cast Nat.zero_le _
      · positivity
    linarith

theorem wavelength_sum_pos (peaks : List ℕ) (hne : peaks ≠ [])
    (hhead : 0 < peaks.getD 0 0) :
    ∀ n, 0 < n → 0 < wavelength_sum peaks n := by
  intro n
  induction n with
  | zero => intro h; exact absurd h (lt_irrefl 0)
  | succ n ih =>
    intro _
    rw [wavelength_sum]
    rcases Nat.eq_zero_or_pos n with hn | hn
    · subst hn
      rw [wavelength_sum]
      have : (0 : ℚ) < (peaks.getD 0 0 : ℚ) := by exact_mod_cast hhead
      rw [zero_add]
      positivity
    · have h1 : (0 : ℚ) ≤ (peaks.getD n 0 : ℚ) / ((n : ℚ) + 1) := by
        apply div_nonneg
        · exact_mod_cast Nat.zero_le _
        · positivity
      have h2 := ih hn
      linarith

/-- C9: every recorded peak index is at least `PEAK_SEARCH_RANGE` (15),
because candidate windows start at that offset; consequently
`calculate_avg_wavelength` of a scan result is strictly positive
(`DEFAULT_VAL` when empty, a mean of positive rank-normalised shifts
otherwise), and the divisor of `FS / avg_wavelength` in `calculate_freq`
is never zero, for any interference profile and any input signal. -/
theorem claim_C9_no_div_by_zero (a : ℕ → ℤ) :
    (∀ p ∈ calculate_peaks a, PEAK_SEARCH_RANGE ≤ p) ∧
    0 < calculate_avg_wavelength (calculate_peaks a) ∧
    calculate_avg_wavelength (calculate_peaks a) ≠ 0 ∧
    ∀ array : ℕ → ℕ,
      calculate_avg_wavelength
        (calculate_peaks
          (fun shift => calculate_interference_pwr shift array)) ≠ 0 := by
  have hmem : ∀ q : ℕ → ℤ, ∀ p ∈ calculate_peaks q, PEAK_SEARCH_RANGE ≤ p := by
    intro q
    have h := calculate_peaks_loop_invariant q SHIFT_LIMIT PEAK_SEARCH_RANGE
      (min_in_range q 0 PEAK_SEARCH_RANGE)
      (min_in_range q PEAK_SEARCH_RANGE PEAK_SEARCH_RANGE) []
      (by simp only [SHIFT_LIMIT, PEAK_SEARCH_RANGE]; omega)
      (min_in_range_lb q _ _)
      (min_in_range_lt q _ _ (by simp only [PEAK_SEARCH_RANGE]; omega))
      (by intro p hp; exact absurd hp (List.not_mem_nil p))
      List.chain'_nil
      (by simp only [List.length_nil, PEAK_TRACKING_LIMIT]; omega)
    exact h.2.2
  have hpos : ∀ q : ℕ → ℤ, 0 < calculate_avg_wavelength (calculate_peaks q) := by
    intro q
    rw [calculate_avg_wavelength]
    rcases hpk : calculate_peaks q with _ | ⟨p, rest⟩
    · norm_num [DEFAULT_VAL]
    · rw [if_neg (by simp)]
      apply div_pos
      · refine wavelength_sum_pos (p :: rest) (by simp) ?_ _ (by simp)
        have hp : PEAK_SEARCH_RANGE ≤ p := by
          have := hmem q
          rw [hpk] at this
          exact this p (List.mem_cons_self p rest)
        rw [List.getD_cons_zero]
        simp only [PEAK_SEARCH_RANGE] at hp
        omega
      · have hl : 0 < (p :: rest).length := Nat.succ_pos rest.length
        exact_mod_cast hl
  refine ⟨hmem a, hpos a, ne_of_gt (hpos a), fun array => ne_of_gt (hpos _)⟩

/-- Witness for C9 at the all-zero profile and the all-zero input. -/
theorem claim_C9_witness :
    (∀ p ∈ calculate_peaks (fun _ => (0 : ℤ)), PEAK_SEARCH_RANGE ≤ p) ∧
    0 < calculate_avg_wavelength (calculate_peaks (fun _ => (0 : ℤ))) ∧
    calculate_avg_wavelength (calculate_peaks (fun _ => (0 : ℤ))) ≠ 0 ∧
    ∀ array : ℕ → ℕ,
      calculate_avg_wavelength
        (calculate_peaks
          (fun shift => calculate_interference_pwr shift array)) ≠ 0 :=
  claim_C9_no_div_by_zero (fun _ => (0 : ℤ))

/-! ### Read locality of the peak scan -/

/-- The scan loop reads the profile only below `SHIFT_LIMIT`: from any
state whose previous and current minimum indices are below `SHIFT_LIMIT`
(as they are in every reachable state), two profiles that agree below
`SHIFT_LIMIT` produce the same result. -/
theorem calculate_peaks_loop_agree (a b : ℕ → ℤ)
    (hab : ∀ j < SHIFT_LIMIT, a j = b j) :
    ∀ n i prev cur peaks, SHIFT_LIMIT - i ≤ n →
      prev < SHIFT_LIMIT → cur < SHIFT_LIMIT →
      calculate_peaks_loop a i prev cur peaks =
        calculate_peaks_loop b i prev cur peaks := by
  intro n
  induction n with
  | zero =>
    intro i prev cur peaks hn hprev hcur
    rw [calculate_peaks_loop,
      dif_neg (by simp only [SHIFT_LIMIT, PEAK_SEARCH_RANGE] at *; omega),
      calculate_peaks_loop,
      dif_neg (by simp only [SHIFT_LIMIT, PEAK_SEARCH_RANGE] at *; omega)]
  | succ n ih =>
    intro i prev cur peaks hn hprev hcur
    by_cases hg : i < SHIFT_LIMIT - PEAK_SEARCH_RANGE - PEAK_SEARCH_RANGE
    · have hwin : i + PEAK_SEARCH_RANGE + PEAK_SEARCH_RANGE ≤ SHIFT_LIMIT := by
        simp only [SHIFT_LIMIT, PEAK_SEARCH_RANGE] at *
        omega
      have hnext_eq : min_in_range a (i + PEAK_SEARCH_RANGE) PEAK_SEARCH_RANGE =
          min_in_range b (i + PEAK_SEARCH_RANGE) PEAK_SEARCH_RANGE := by
        refine min_in_range_congr a b _ _ fun j _ hj2 => hab j ?_
        omega
      have hnext_lt : min_in_range a (i + PEAK_SEARCH_RANGE) PEAK_SEARCH_RANGE <
          SHIFT_LIMIT := by
        have := min_in_range_lt a (i + PEAK_SEARCH_RANGE) PEAK_SEARCH_RANGE
          (by simp only [PEAK_SEARCH_RANGE]; omega)
        omega
      have hvprev : a prev = b prev := hab prev hprev
      have hvcur : a cur = b cur := hab cur hcur
      have hvnext : a (min_in_range a (i + PEAK_SEARCH_RANGE) PEAK_SEARCH_RANGE) =
          b (min_in_range b (i + PEAK_SEARCH_RANGE) PEAK_SEARCH_RANGE) := by
        rw [← hnext_eq]
        exact hab _ hnext_lt
      have hvpred : a (cur - 1) = b (cur - 1) := hab _ (by omega)
      rw [calculate_peaks_loop, dif_pos hg]
      conv_rhs => rw [calculate_peaks_loop]
      rw [dif_pos hg]
      by_cases hc : a prev > a cur ∧
          a (min_in_range a (i + PEAK_SEARCH_RANGE) PEAK_SEARCH_RANGE) > a cur
      · have hc' : b prev > b cur ∧
            b (min_in_range b (i + PEAK_SEARCH_RANGE) PEAK_SEARCH_RANGE) > b cur := by
          rw [← hvprev, ← hvcur, ← hvnext]
          exact hc
        rw [if_pos hc, if_pos hc']
        by_cases hh : 0 < cur ∧ a (cur - 1) < a cur
        · have hh' : 0 < cur ∧ b (cur - 1) < b cur := by
            rw [← hvpred, ← hvcur]
            exact hh
          rw [if_pos hh, if_pos hh']
        · have hh' : ¬(0 < cur ∧ b (cur - 1) < b cur) := by
            rw [← hvpred, ← hvcur]
            exact hh
          rw [if_neg hh, if_neg hh']
          by_cases hf : PEAK_TRACKING_LIMIT ≤ (peaks ++ [cur]).length
          · rw [if_pos hf, if_pos hf]
          · rw [if_neg hf, if_neg hf, hnext_eq]
            refine ih (i + PEAK_SEARCH_RANGE) cur _ (peaks ++ [cur]) ?_ hcur ?_
            · simp only [SHIFT_LIMIT, PEAK_SEARCH_RANGE] at *
              omega
            · rw [← hnext_eq]
              exact hnext_lt
      · have hc' : ¬(b prev > b cur ∧
            b (min_in_range b (i + PEAK_SEARCH_RANGE) PEAK_SEARCH_RANGE) > b cur) := by
          rw [← hvprev, ← hvcur, ← hvnext]
          exact hc
        rw [if_neg hc, if_neg hc', hnext_eq]
        refine ih (i + PEAK_SEARCH_RANGE) cur _ peaks ?_ hcur ?_
        · simp only [SHIFT_LIMIT, PEAK_SEARCH_RANGE] at *
          omega
        · rw [← hnext_eq]
          exact hnext_lt
    · rw [calculate_peaks_loop, dif_neg hg, calculate_peaks_loop, dif_neg hg]

/-- C8: `calculate_peaks` never examines a profile index at or beyond
`SHIFT_LIMIT` (1250): its result depends only on profile values at
indices below `SHIFT_LIMIT`, i.e. two profiles that agree on
`[0, SHIFT_LIMIT)` give identical peak lists.  All windows passed to
`min_in_range` (ending at index 1244) and every candidate predecessor
index lie below 1250, hence inside the `NUM_SAMPLES`-element profile. -/
theorem claim_C8_reads_below_shift_limit (a b : ℕ → ℤ)
    (hab : ∀ j < SHIFT_LIMIT, a j = b j) :
    calculate_peaks a = calculate_peaks b := by
  rw [calculate_peaks, calculate_peaks]
  have h0 : min_in_range a 0 PEAK_SEARCH_RANGE =
      min_in_range b 0 PEAK_SEARCH_RANGE := by
    refine min_in_range_congr a b _ _ fun j _ hj2 => hab j ?_
    simp only [SHIFT_LIMIT, PEAK_SEARCH_RANGE] at *
    omega
  have h1 : min_in_range a PEAK_SEARCH_RANGE PEAK_SEARCH_RANGE =
      min_in_range b PEAK_SEARCH_RANGE PEAK_SEARCH_RANGE := by
    refine min_in_range_congr a b _ _ fun j _ hj2 => hab j ?_
    simp only [SHIFT_LIMIT, PEAK_SEARCH_RANGE] at *
    omega
  rw [h0, h1]
  refine calculate_peaks_loop_agree a b hab SHIFT_LIMIT PEAK_SEARCH_RANGE _ _ []
    (by simp only [SHIFT_LIMIT, PEAK_SEARCH_RANGE]; omega) ?_ ?_
  · rw [← h0]
    have := min_in_range_le a 0 PEAK_SEARCH_RANGE
    simp only [SHIFT_LIMIT, PEAK_SEARCH_RANGE] at *
    omega
  · rw [← h1]
    have := min_in_range_le a PEAK_SEARCH_RANGE PEAK_SEARCH_RANGE
    simp only [SHIFT_LIMIT, PEAK_SEARCH_RANGE] at *
    omega

/-- Witness for C8: a profile that differs from the all-zero profile only
at index `SHIFT_LIMIT` (1250) yields the same peak list as the all-zero
profile. -/
theorem claim_C8_witness :
    (∀ j < SHIFT_LIMIT,
      (fun j => if j = 1250 then (5 : ℤ) else 0) j = (fun _ => (0 : ℤ)) j) ∧
    calculate_peaks (fun j => if j = 1250 then (5 : ℤ) else 0) =
      calculate_peaks (fun _ => (0 : ℤ)) := by
  have h : ∀ j < SHIFT_LIMIT,
      (fun j => if j = 1250 then (5 : ℤ) else 0) j = (fun _ => (0 : ℤ)) j := by
    intro j hj
    simp only [SHIFT_LIMIT] at hj
    simp only []
    rw [if_neg (by omega)]
  exact ⟨h, claim_C8_reads_below_shift_limit _ _ h⟩

/-- C3: during the scan the previous, current and next minimum indices
are the `min_in_range` results of three consecutive 15-wide windows (this
holds initially and is re-established by each slide).  For such a state:
the current minimum index lies in the current window, attains the window
minimum, and is the first index attaining it (ties resolve to the lowest
index); when the current minimum's value fails to be strictly below both
neighbouring window minima (in particular on any equality) no candidate
is declared — the iteration is a pure slide leaving the peak list
untouched; and when both strict inequalities hold the iteration processes
exactly the current minimum index as candidate. -/
theorem claim_C3_candidate_declaration (a : ℕ → ℤ) (i prev cur next : ℕ)
    (peaks : List ℕ)
    (h15 : PEAK_SEARCH_RANGE ≤ i)
    (hi : i < SHIFT_LIMIT - PEAK_SEARCH_RANGE - PEAK_SEARCH_RANGE)
    (hprev : prev = min_in_range a (i - PEAK_SEARCH_RANGE) PEAK_SEARCH_RANGE)
    (hcur : cur = min_in_range a i PEAK_SEARCH_RANGE)
    (hnext : next = min_in_range a (i + PEAK_SEARCH_RANGE) PEAK_SEARCH_RANGE) :
    (i ≤ cur ∧ cur < i + PEAK_SEARCH_RANGE ∧
      (∀ j, i ≤ j → j < i + PEAK_SEARCH_RANGE → a cur ≤ a j) ∧
      (∀ j, i ≤ j → j < cur → a cur < a j)) ∧
    (¬(a prev > a cur ∧ a next > a cur) →
      calculate_peaks_loop a i prev cur peaks =
        calculate_peaks_loop a (i + PEAK_SEARCH_RANGE) cur next peaks) ∧
    ((a prev > a cur ∧ a next > a cur) →
      calculate_peaks_loop a i prev cur peaks =
        (if 0 < cur ∧ a (cur - 1) < a cur then peaks
         else if PEAK_TRACKING_LIMIT ≤ (peaks ++ [cur]).length then
           peaks ++ [cur]
         else calculate_peaks_loop a (i + PEAK_SEARCH_RANGE) cur next
           (peaks ++ [cur]))) := by
  refine ⟨⟨?_, ?_, ?_, ?_⟩, ?_, ?_⟩
  · rw [hcur]
    exact min_in_range_lb a i PEAK_SEARCH_RANGE
  · rw [hcur]
    exact min_in_range_lt a i PEAK_SEARCH_RANGE
      (by simp only [PEAK_SEARCH_RANGE]; omega)
  · intro j hj1 hj2
    rw [hcur]
    have h := min_in_range_min a i PEAK_SEARCH_RANGE (j - i) (by omega)
    rwa [show i + (j - i) = j by omega] at h
  · intro j hj1 hj2
    rw [hcur]
    rw [hcur] at hj2
    exact min_in_range_first a i PEAK_SEARCH_RANGE j hj1 hj2
  · intro hno
    conv_lhs => rw [calculate_peaks_loop]
    rw [dif_pos hi, ← hnext, if_neg hno]
  · intro hyes
    conv_lhs => rw [calculate_peaks_loop]
    rw [dif_pos hi, ← hnext, if_pos hyes]

/-- Witness for C3 on the all-zero profile at the first scan state: all
window minima tie at value 0, so no candidate is declared and the
iteration is a pure slide. -/
theorem claim_C3_witness :
    (PEAK_SEARCH_RANGE ≤ 15 ∧
      15 < SHIFT_LIMIT - PEAK_SEARCH_RANGE - PEAK_SEARCH_RANGE ∧
      0 = min_in_range (fun _ => (0 : ℤ)) (15 - PEAK_SEARCH_RANGE)
        PEAK_SEARCH_RANGE ∧
      15 = min_in_range (fun _ => (0 : ℤ)) 15 PEAK_SEARCH_RANGE ∧
      30 = min_in_range (fun _ => (0 : ℤ)) (15 + PEAK_SEARCH_RANGE)
        PEAK_SEARCH_RANGE) ∧
    ((15 ≤ 15 ∧ 15 < 15 + PEAK_SEARCH_RANGE ∧
      (∀ j, 15 ≤ j → j < 15 + PEAK_SEARCH_RANGE →
        (fun _ => (0 : ℤ)) 15 ≤ (fun _ => (0 : ℤ)) j) ∧
      (∀ j, 15 ≤ j → j < 15 → (fun _ => (0 : ℤ)) 15 < (fun _ => (0 : ℤ)) j)) ∧
    (¬((fun _ => (0 : ℤ)) 0 > (fun _ => (0 : ℤ)) 15 ∧
        (fun _ => (0 : ℤ)) 30 > (fun _ => (0 : ℤ)) 15) →
      calculate_peaks_loop (fun _ => (0 : ℤ)) 15 0 15 [] =
        calculate_peaks_loop (fun _ => (0 : ℤ)) (15 + PEAK_SEARCH_RANGE)
          15 30 []) ∧
    (((fun _ => (0 : ℤ)) 0 > (fun _ => (0 : ℤ)) 15 ∧
        (fun _ => (0 : ℤ)) 30 > (fun _ => (0 : ℤ)) 15) →
      calculate_peaks_loop (fun _ => (0 : ℤ)) 15 0 15 [] =
        (if 0 < 15 ∧ (fun _ => (0 : ℤ)) (15 - 1) < (fun _ => (0 : ℤ)) 15 then
           ([] : List ℕ)
         else if PEAK_TRACKING_LIMIT ≤ (([] : List ℕ) ++ [15]).length then
           ([] : List ℕ) ++ [15]
         else calculate_peaks_loop (fun _ => (0 : ℤ)) (15 + PEAK_SEARCH_RANGE)
           15 30 (([] : List ℕ) ++ [15])))) := by
  refine ⟨⟨by decide, by decide, by decide, by decide, by decide⟩, ?_⟩
  exact claim_C3_candidate_declaration (fun _ => (0 : ℤ)) 15 0 15 30 []
    (by decide) (by decide) (by decide) (by decide) (by decide)

end ChromaticTuner
